import Mathlib

/-!
Verification of the platform runtime layer of dgen-nspire (src/sdl/sdl.cpp
and src/main.cpp) against its natural-language specification.

Every definition below is a shallow embedding of a function or data
structure of src/sdl/sdl.cpp, translated statement by statement; machine
bytes are modelled as natural numbers, byte arrays as lists, and the
`uint8_t` repeat counters of the stretch filter with explicit `% 256`.
-/

namespace DGen

/-! ### Circular buffer (`cbuf_t`, `cbuf_write`, `cbuf_read`, sdl.cpp:137-204) -/

/-- Model of `cbuf_t`: `i` is the data start index, `s` the occupied size,
`size` the capacity, `data` the storage (a list of `size` bytes). -/
structure cbuf_t where
  i : Nat
  s : Nat
  size : Nat
  data : List Nat
deriving Repr, DecidableEq

/-- Well-formedness of a circular buffer: start index in range, occupancy
at most the capacity, storage exactly `size` bytes.  (`i < size` is the
state every reachable buffer has, since `i` is only ever assigned results
of `% size`; it forces `size ≥ 1`.) -/
def cbuf_inv (c : cbuf_t) : Prop :=
  c.i < c.size ∧ c.s ≤ c.size ∧ c.data.length = c.size

/-- In-bounds `memcpy` into `dst` at byte offset `j`, as performed by the C
code: bytes `j ≤ q < j + src.length` are replaced by `src`. -/
def memcpy (dst : List Nat) (j : Nat) (src : List Nat) : List Nat :=
  dst.take j ++ src ++ dst.drop (j + src.length)

/-- The copy step of `cbuf_write` (sdl.cpp:171-178): `k = size - j` bytes
fit before the end of the storage; copy `src` to position `j` whole when
it fits, otherwise split it there and wrap the remainder to position 0. -/
def cbuf_copy (data : List Nat) (size j : Nat) (src : List Nat) : List Nat :=
  if size - j ≥ src.length then memcpy data j src
  else memcpy (memcpy data j (src.take (size - j))) 0 (src.drop (size - j))

/-- Model of `cbuf_write` (sdl.cpp:154-180).  Returns the new buffer and
the number of bytes copied.  Mirrors the source: clamp `src` to its
trailing `cbuf.size` bytes, advance the start index when the free space
`k` is exceeded, then copy with at most one wrap split. -/
def cbuf_write (cbuf : cbuf_t) (src : List Nat) : cbuf_t × Nat :=
  let src := if src.length > cbuf.size then src.drop (src.length - cbuf.size) else src
  let size := src.length
  let k := cbuf.size - cbuf.s
  let j := (cbuf.i + cbuf.s) % cbuf.size
  let i2 := if size > k then (cbuf.i + (size - k)) % cbuf.size else cbuf.i
  let s2 := if size > k then cbuf.size else cbuf.s + size
  let data2 := cbuf_copy cbuf.data cbuf.size j src
  (⟨i2, s2, cbuf.size, data2⟩, size)

/-- Model of `cbuf_read` (sdl.cpp:189-204).  Returns the bytes copied to
`dst` and the new buffer state. -/
def cbuf_read (cbuf : cbuf_t) (n : Nat) : List Nat × cbuf_t :=
  let size := if n > cbuf.s then cbuf.s else n
  let dst :=
    if cbuf.i + size > cbuf.size then
      (cbuf.data.drop cbuf.i).take (cbuf.size - cbuf.i) ++
        cbuf.data.take (size - (cbuf.size - cbuf.i))
    else (cbuf.data.drop cbuf.i).take size
  (dst, ⟨(cbuf.i + size) % cbuf.size, cbuf.s - size, cbuf.size, cbuf.data⟩)

/-- Logical contents of a circular buffer: the `s` occupied bytes starting
at index `i`, in FIFO order. -/
def cbuf_contents (c : cbuf_t) : List Nat :=
  (List.range c.s).map (fun idx => c.data.getD ((c.i + idx) % c.size) 0)

/-- The trailing `n` elements of a list. -/
def takeLast (l : List Nat) (n : Nat) : List Nat :=
  l.drop (l.length - n)

/-- One producer/consumer operation on the circular buffer. -/
inductive cbuf_op where
  | write (src : List Nat)
  | read (n : Nat)
deriving Repr

/-- Run a sequence of operations; returns the final buffer together with
the concatenation of all bytes delivered by the reads. -/
def cbuf_run (c : cbuf_t) : List cbuf_op → cbuf_t × List Nat
  | [] => (c, [])
  | (cbuf_op.write src) :: ops =>
      let r := cbuf_write c src
      cbuf_run r.1 ops
  | (cbuf_op.read n) :: ops =>
      let r := cbuf_read c n
      let rest := cbuf_run r.2 ops
      (rest.1, r.1 ++ rest.2)

/-- All writes of the sequence fit into the free space at the moment they
happen (occupancy never exceeds capacity by overwrite). -/
def cbuf_writes_fit (c : cbuf_t) : List cbuf_op → Prop
  | [] => True
  | (cbuf_op.write src) :: ops =>
      c.s + src.length ≤ c.size ∧ cbuf_writes_fit (cbuf_write c src).1 ops
  | (cbuf_op.read n) :: ops => cbuf_writes_fit (cbuf_read c n).2 ops

/-- Concatenation of all bytes submitted by the writes of a sequence. -/
def cbuf_written : List cbuf_op → List Nat
  | [] => []
  | (cbuf_op.write src) :: ops => src ++ cbuf_written ops
  | (cbuf_op.read _) :: ops => cbuf_written ops

/-- Model of the audio callback `snd_callback` (sdl.cpp:1726-1736): read
as much as available from the ring buffer, zero-fill the shortfall. -/
def snd_callback (c : cbuf_t) (len : Nat) : List Nat × cbuf_t :=
  let r := cbuf_read c len
  let wrote := r.1.length
  (r.1 ++ List.replicate (len - wrote) 0, r.2)

/-! ### Freeze reference counting (`freeze`, sdl.cpp:257-279) -/

/-- The two globals `pd_freeze` and `pd_freeze_ref` of sdl.cpp. -/
structure freeze_state where
  pd_freeze : Bool
  pd_freeze_ref : Nat
deriving Repr, DecidableEq

/-- Model of `freeze(bool toggle)` (sdl.cpp:260-279). -/
def freeze (toggle : Bool) (st : freeze_state) : freeze_state :=
  if toggle then
    let st := if st.pd_freeze_ref = 0 then { st with pd_freeze := true } else st
    { st with pd_freeze_ref := st.pd_freeze_ref + 1 }
  else
    if st.pd_freeze_ref ≠ 0 then
      let r := st.pd_freeze_ref - 1
      { pd_freeze := if r = 0 then false else st.pd_freeze, pd_freeze_ref := r }
    else st

/-- The freeze invariant: the boolean mirrors positivity of the count. -/
def freeze_inv (st : freeze_state) : Prop :=
  st.pd_freeze = true ↔ 0 < st.pd_freeze_ref

/-! ### Graphics initialization (`pd_graphics_init`, sdl.cpp:1567-1634) -/

/-- The fields of the global `video` structure that `pd_graphics_init`
touches. -/
structure video_t where
  hz : Int
  is_pal : Nat
  height : Nat
deriving Repr, DecidableEq

/-- Model of `pd_graphics_init` (sdl.cpp:1567-1634).  The frame-rate check
happens before any assignment to `video`; afterwards `video.hz`,
`video.is_pal` and `video.height` are set, then SDL and screen
initialization run (abstracted by the oracle `sdl_ok`, they do not touch
these three fields).  Returns the C return value and the new `video`. -/
def pd_graphics_init (v : video_t) (want_pal : Int) (hz : Int) (sdl_ok : Bool) :
    Nat × video_t :=
  if hz ≤ 0 ∨ 1000 < hz then (0, v)
  else
    let v := { v with hz := hz }
    let v :=
      if want_pal ≠ 0 then { v with is_pal := 1, height := 240 }
      else { v with is_pal := 0, height := 224 }
    if sdl_ok then (1, v) else (0, v)

/-! ### Stretch filter tables (`filter_stretch`, sdl.cpp:1264-1385) -/

/-- Repeat-count table built by the loops at sdl.cpp:1365-1374: for each
destination coordinate `d < dst`, the source coordinate
`s = (d <<< 10) / ratio` gets one more unit, provided `s < src`.  The
table entries are `uint8_t` in the source, hence the increment is taken
modulo 256. -/
def stretch_step (ratio src : Nat) (t : List Nat) (d : Nat) : List Nat :=
  let s := (d * 1024) / ratio
  if s < src then t.set s ((t.getD s 0 + 1) % 256) else t

def stretch_table (dst : Nat) (ratio : Nat) (src : Nat) : List Nat :=
  (List.range dst).foldl (stretch_step ratio src) (List.replicate src 0)

/-- Aspect-ratio correction of the output size (sdl.cpp:1332-1348),
performed when `dgen_aspect` is set. -/
def stretch_fix_aspect (aspect : Bool) (dst_w dst_h src_w src_h : Nat) :
    Nat × Nat :=
  if aspect then
    let w := (dst_h * src_w) / src_h
    let h := (dst_w * src_h) / src_w
    if w ≥ dst_w then (dst_w, if h = 0 then 1 else h)
    else (if w = 0 then 1 else w, dst_h)
  else (dst_w, dst_h)

/-- The table-precomputation part of `filter_stretch` initialisation
(sdl.cpp:1302-1374) for an accepted geometry: aspect correction, the
fixed-point ratios `(dst <<< 10) / src`, then both repeat tables. -/
def filter_stretch_tables (aspect : Bool) (out_w out_h src_w src_h : Nat) :
    List Nat × List Nat :=
  let dims := stretch_fix_aspect aspect out_w out_h src_w src_h
  let h_ratio := (dims.1 * 1024) / src_w
  let v_ratio := (dims.2 * 1024) / src_h
  (stretch_table dims.1 h_ratio src_w, stretch_table dims.2 v_ratio src_h)

/-! ### Filter stack (`filters_available`, `filters_stack_update`,
sdl.cpp:374-574) -/

/-- Model of `struct filter` (sdl.cpp:374-380), keeping the fields the
stack logic inspects (the transform function pointer is identified by the
name). -/
structure filter where
  name : String
  safe : Bool
  ctv : Bool
  resize : Bool
deriving Repr, DecidableEq

/-- The catalog `filters_available` (sdl.cpp:386-389): exactly the stretch
and scale stages, both unsafe and resizing.  Note that no identity or
passthrough stage is registered. -/
def filters_available : List filter :=
  [⟨"stretch", false, false, true⟩, ⟨"scale", false, false, true⟩]

/-- The mutable filter-stack state: `filters_stack` (with
`filters_stack_size` given by the list length) and
`filters_stack_default`. -/
structure filters_state where
  stack : List filter
  isDefault : Bool
deriving Repr, DecidableEq

/-- Number of extra buffers requested by the counting loop at
sdl.cpp:454-463: stages that are not safe and not on top of the stack. -/
def filters_count_buffers (l : List filter) : Nat :=
  l.dropLast.countP (fun f => !f.safe)

/-- The drop-one-filter loop run on allocation failure
(sdl.cpp:511-522): remove the first unsafe stage from the stack. -/
def filters_drop_one : List filter → List filter
  | [] => []
  | f :: rest => if f.safe then f :: filters_drop_one rest else rest

/-- The buffer (re)allocation loop at sdl.cpp:494-526, abstracted over an
allocation oracle: attempts `buffers` allocations numbered from `c`;
returns whether all succeeded together with the next attempt number. -/
def filters_alloc_run (alloc : Nat → Bool) : Nat → Nat → Bool × Nat
  | c, 0 => (true, c)
  | c, n + 1 => if alloc c then filters_alloc_run alloc (c + 1) n else (false, c + 1)

/-- One pass of the `retry:` loop body of `filters_stack_update`
(sdl.cpp:445-536).  `Sum.inl` means `goto retry` with the new state and
allocation counter, `Sum.inr` means the pass completed (buffer wiring and
`screen_clear` do not touch the stack). -/
def filters_update_step (alloc : Nat → Bool) (st : filters_state) (c : Nat) :
    (filters_state × Nat) ⊕ filters_state :=
  if st.stack.isEmpty then
    Sum.inl (⟨[filters_available.getD 0 ⟨"", false, false, false⟩], true⟩, c)
  else if 1 < st.stack.length ∧ st.isDefault = true then
    Sum.inl (⟨st.stack.drop 1, false⟩, c)
  else
    let buffers := filters_count_buffers st.stack
    if buffers = 0 then Sum.inr st
    else
      let r := filters_alloc_run alloc c (min buffers 2)
      if r.1 then Sum.inr st
      else
        let dropped := filters_drop_one st.stack
        if dropped.length < st.stack.length then Sum.inl (⟨dropped, st.isDefault⟩, r.2)
        else Sum.inr st

/-- Iterate `filters_update_step` with explicit fuel; the fuel chosen in
`filters_stack_update` strictly dominates the number of passes the C loop
can make, so the fuel-exhaustion branch is never taken. -/
def filters_update_iter (alloc : Nat → Bool) : Nat → filters_state → Nat → filters_state
  | 0, st, _ => st
  | fuel + 1, st, c =>
      match filters_update_step alloc st c with
      | Sum.inl (st2, c2) => filters_update_iter alloc fuel st2 c2
      | Sum.inr st2 => st2

/-- Model of `filters_stack_update` (sdl.cpp:415-574), restricted to its
effect on the stack and the default flag. -/
def filters_stack_update (alloc : Nat → Bool) (st : filters_state) : filters_state :=
  filters_update_iter alloc (2 * st.stack.length + 12) st 0

/-! ### Calibration (`calibration_steps`, `manage_calibration`,
sdl.cpp:2566-2680) -/

/-- The `rc_binding_type` enumeration (declared in the rc header outside
src/; sdl.cpp uses the constants `RCBJ` and the sentinel `RCB_NUM`). -/
inductive rc_binding_type where
  | RCBK
  | RCBJ
  | RCBM
  | RCB_NUM
deriving Repr, DecidableEq

/-- Sentinel control id `CTL_`, the terminator value of `enum ctl_e`.  Its
numeric value is irrelevant to the logic; any value distinct from the 24
pad control indices works. -/
def CTL_ : Nat := 1000

/-- One entry of `calibration_steps` (sdl.cpp:2566-2573): the pair of
control-table indices (player 1, player 2), the two confirmation flags and
the captured binding. -/
structure cal_step where
  ids : Nat × Nat
  once : Bool
  twice : Bool
  type : rc_binding_type
  code : Int
deriving Repr, DecidableEq

instance : Inhabited cal_step :=
  ⟨⟨(CTL_, CTL_), false, false, rc_binding_type.RCB_NUM, -1⟩⟩

/-- The static `calibration_steps` array (sdl.cpp:2573-2600): 12 buttons
in order START, MODE, A, B, C, X, Y, Z, UP, DOWN, LEFT, RIGHT plus the
`NULL` terminator entry.  Control indices follow the order of `enum ctl_e`
(sdl.cpp:2018 ff.): `CTL_PAD1_UP = 0`, ..., `CTL_PAD1_START = 11`,
`CTL_PAD2_UP = 12`, ..., `CTL_PAD2_START = 23`. -/
def calibration_steps_init : List cal_step :=
  [⟨(11, 23), false, false, rc_binding_type.RCB_NUM, -1⟩,
   ⟨(10, 22), false, false, rc_binding_type.RCB_NUM, -1⟩,
   ⟨(4, 16), false, false, rc_binding_type.RCB_NUM, -1⟩,
   ⟨(5, 17), false, false, rc_binding_type.RCB_NUM, -1⟩,
   ⟨(6, 18), false, false, rc_binding_type.RCB_NUM, -1⟩,
   ⟨(7, 19), false, false, rc_binding_type.RCB_NUM, -1⟩,
   ⟨(8, 20), false, false, rc_binding_type.RCB_NUM, -1⟩,
   ⟨(9, 21), false, false, rc_binding_type.RCB_NUM, -1⟩,
   ⟨(0, 12), false, false, rc_binding_type.RCB_NUM, -1⟩,
   ⟨(1, 13), false, false, rc_binding_type.RCB_NUM, -1⟩,
   ⟨(2, 14), false, false, rc_binding_type.RCB_NUM, -1⟩,
   ⟨(3, 15), false, false, rc_binding_type.RCB_NUM, -1⟩,
   ⟨(CTL_, CTL_), false, false, rc_binding_type.RCB_NUM, -1⟩]

/-- Global state touched by `manage_calibration`: the `calibrating` flag,
the selected controller, the steps array, the freeze state, and the
control-table writes the commit loop (sdl.cpp:2664-2675) has performed,
as a log of `(control index, binding type, code)` triples. -/
structure cal_state where
  calibrating : Bool
  controller : Nat
  steps : List cal_step
  frz : freeze_state
  committed : List (Nat × rc_binding_type × Int)
deriving Repr, DecidableEq

/-- Initial calibration state, before any `calibrate` command. -/
def cal_init : cal_state :=
  ⟨false, 0, calibration_steps_init, ⟨false, 0⟩, []⟩

/-- The binding writes of the commit loop (sdl.cpp:2664-2675): for every
step whose target id is not `CTL_` and whose captured type is not
`RCB_NUM`, write the captured code into the control table. -/
def cal_commits (cs : cal_state) : List (Nat × rc_binding_type × Int) :=
  cs.steps.filterMap (fun st =>
    let id := if cs.controller = 0 then st.ids.1 else st.ids.2
    if id ≠ CTL_ ∧ st.type ≠ rc_binding_type.RCB_NUM then some (id, st.type, st.code)
    else none)

/-- The code from the `ask:` label onwards (sdl.cpp:2655-2678): when all
steps are done, commit the captured bindings unless the last captured code
is still `-1`. -/
def cal_ask (cs : cal_state) (step : Nat) : cal_state :=
  if step = cs.steps.length then
    let code := (cs.steps.getD (cs.steps.length - 1) default).code
    if code = -1 then cs
    else { cs with committed := cs.committed ++ cal_commits cs }
  else cs

/-- Model of `manage_calibration` (sdl.cpp:2607-2680), faithful to the
control flow of the source: enter calibration on the first call; otherwise
find the first step that is not both once- and twice-confirmed; if all
steps are done, reset everything and unfreeze; otherwise capture the input
into the current step when `once` is not yet set; finally advance to
`ask:` only when the current step is once- and twice-confirmed. -/
def manage_calibration (cs : cal_state) (ty : rc_binding_type) (code : Int) :
    cal_state :=
  if cs.calibrating = false then
    let cs := { cs with frz := freeze true cs.frz, calibrating := true }
    cal_ask cs 0
  else
    let step := cs.steps.findIdx (fun st => !(st.once && st.twice))
    if step = cs.steps.length then
      { cs with
        steps := cs.steps.map (fun st =>
          { st with once := false, twice := false,
                    type := rc_binding_type.RCB_NUM, code := -1 }),
        frz := freeze false cs.frz,
        calibrating := false }
    else
      let cur := cs.steps.getD step default
      let cs :=
        if cur.once = false then
          { cs with steps :=
              cs.steps.set step { cur with once := true, type := ty, code := code } }
        else cs
      let st := cs.steps.getD step default
      if !(st.once && st.twice) then cs
      else cal_ask cs (step + 1)

/-- Run a list of calibration input events through `manage_calibration`. -/
def cal_run (cs : cal_state) (evs : List (rc_binding_type × Int)) : cal_state :=
  evs.foldl (fun cs e => manage_calibration cs e.1 e.2) cs

/-- The event sequence of claim C1: the `calibrate` command entry call
(`manage_calibration(RCB_NUM, -1)`, sdl.cpp:1414) followed by exactly two
keyboard events for each of the 12 steps, with distinct codes per step. -/
def cal_two_per_step_events : List (rc_binding_type × Int) :=
  (rc_binding_type.RCB_NUM, -1) ::
    (List.range 12).flatMap (fun n =>
      [(rc_binding_type.RCBK, (100 + n : Int)), (rc_binding_type.RCBK, (100 + n : Int))])

/-! ### Combos (`manage_combos`, `check_combos`, sdl.cpp:2682-2738) -/

/-- Model of `struct rc_binding_item` as used by the combos code. -/
structure rc_binding_item where
  assigned : Bool
  type : rc_binding_type
  code : Int
deriving Repr, DecidableEq

instance : Inhabited rc_binding_item :=
  ⟨⟨false, rc_binding_type.RCB_NUM, -1⟩⟩

/-- Capacity of the `combos` array (sdl.cpp:2682). -/
def combos_capacity : Nat := 64

/-- The initial all-unassigned `combos` array. -/
def combos_init : List rc_binding_item :=
  List.replicate combos_capacity default

/-- Model of `manage_combos` (sdl.cpp:2684-2709), written as the loop it
is: scan the entries in order; at the first unassigned entry, fill it on
press or stop on release; at a matching assigned entry, stop on press, and
on release remove it by
`memmove(&combos[i], &combos[i+1], (64-(i+1))*sizeof)` — the tail shifts
down one slot and the final slot keeps its old value, which is what
`rest ++ [getLast]` expresses (the last element of the whole array equals
the last element of the suffix being scanned). -/
def manage_combos : List rc_binding_item → Bool → rc_binding_type → Int →
    List rc_binding_item
  | [], _, _, _ => []
  | e :: rest, pressed, ty, code =>
    if e.assigned = false then
      if pressed then ⟨true, ty, code⟩ :: rest else e :: rest
    else if decide (e.type = ty) && decide (e.code = code) then
      (if pressed then e :: rest
       else rest ++ [(e :: rest).getLast?.getD default])
    else e :: manage_combos rest pressed ty code

/-- The inner loop of `check_combos` (sdl.cpp:2725-2733): scan the combos
array until the first unassigned entry, looking for a matching pair. -/
def combo_present (combos : List rc_binding_item) (ty : rc_binding_type)
    (code : Int) : Bool :=
  (combos.takeWhile (fun e => e.assigned)).any
    (fun e => decide (e.type = ty) && decide (e.code = code))

/-- Model of `check_combos` (sdl.cpp:2711-2738): the requested combo is
truncated at its first unassigned entry; the result is true iff it is then
non-empty and every member is found in the tracked set. -/
def check_combos (combos : List rc_binding_item) (item : List rc_binding_item) :
    Bool :=
  let items := item.takeWhile (fun e => e.assigned)
  decide (items.length ≠ 0) &&
    (items.countP (fun e => combo_present combos e.type e.code) == items.length)

/-- The logical tracked set: the `(type, code)` pairs of the leading
assigned entries. -/
def combos_tracked (l : List rc_binding_item) : List (rc_binding_type × Int) :=
  (l.takeWhile (fun e => e.assigned)).map (fun e => (e.type, e.code))

/-- Well-formedness of the combos array, true of every reachable state:
the assigned entries come first, i.e. from the first unassigned slot on,
every entry is unassigned. -/
def combos_wf (l : List rc_binding_item) : Prop :=
  ∀ x ∈ l.dropWhile (fun e => e.assigned), x.assigned = false

/-- A fully occupied combos array: 64 assigned entries with distinct
codes. -/
def combos_full : List rc_binding_item :=
  (List.range combos_capacity).map (fun n => ⟨true, rc_binding_type.RCBK, (n : Int)⟩)

/-! ### Keyboard input (`kb_input`, sdl.cpp:1925-2014) -/

/-- Byte indices read by the `memmove` of the Delete branch
(sdl.cpp:1945-1954): `tail = (size - pos) + 1` bytes starting at
`pos + 1`. -/
def kb_delete_read_indices (size pos : Nat) : List Nat :=
  (List.range ((size - pos) + 1)).map (fun k => (pos + 1) + k)

/-- Byte indices written by the `memmove` of the Delete branch
(sdl.cpp:1945-1954): `tail = (size - pos) + 1` bytes starting at `pos`. -/
def kb_delete_write_indices (size pos : Nat) : List Nat :=
  (List.range ((size - pos) + 1)).map (fun k => pos + k)

/-- Byte indices read by the `memmove` of the Backspace branch
(sdl.cpp:1956-1966), where `pos` is the cursor after the `--input->pos`
decrement: `tail = (size - pos) + 1` bytes starting at `pos + 1`. -/
def kb_backspace_read_indices (size pos : Nat) : List Nat :=
  (List.range ((size - pos) + 1)).map (fun k => (pos + 1) + k)

/-! ## Theorems -/

/-- C7: the freeze reference counter keeps the invariant that `pd_freeze`
is true exactly when `pd_freeze_ref > 0`: `freeze true` increments the
count, `freeze false` decrements it when it is positive and leaves it
unchanged at zero, so nested stop requests compose and emulation is
unfrozen only after the count returns to zero. -/
theorem freeze_refcount_spec (st : freeze_state) (h : freeze_inv st) :
    (∀ b, freeze_inv (freeze b st)) ∧
    (freeze true st).pd_freeze_ref = st.pd_freeze_ref + 1 ∧
    (0 < st.pd_freeze_ref →
      (freeze false st).pd_freeze_ref = st.pd_freeze_ref - 1) ∧
    (st.pd_freeze_ref = 0 → freeze false st = st) ∧
    ((freeze false st).pd_freeze = false ↔ st.pd_freeze_ref ≤ 1) := by
  obtain ⟨f, r⟩ := st
  simp only [freeze_inv] at h
  simp only [freeze_inv, freeze]
  by_cases hr : r = 0
  · subst hr
    simp_all
  · have hf : f = true := h.mpr (Nat.pos_of_ne_zero hr)
    subst hf
    refine ⟨fun b => ?_, by simp [hr], by simp [hr], by simp [hr], ?_⟩
    · cases b <;> by_cases hr1 : r - 1 = 0 <;> simp [hr, hr1] <;> omega
    · by_cases hr1 : r - 1 = 0 <;> simp [hr, hr1] <;> omega

/-- Witness for C7 at the concrete state `pd_freeze = false`,
`pd_freeze_ref = 0`. -/
theorem freeze_refcount_spec_witness :
    freeze_inv (⟨false, 0⟩ : freeze_state) ∧
    (freeze true ⟨false, 0⟩).pd_freeze_ref = 0 + 1 := by
  have h : freeze_inv (⟨false, 0⟩ : freeze_state) := by
    simp [freeze_inv]
  exact ⟨h, (freeze_refcount_spec ⟨false, 0⟩ h).2.1⟩

/-- C6: `pd_graphics_init` fails (returns 0) for `hz ≤ 0` or `hz > 1000`
without touching `video.hz`, `video.is_pal` or `video.height`; for a valid
`hz` it sets `video.height` to 240 when `want_pal` is nonzero and to 224
otherwise. -/
theorem pd_graphics_init_spec (v : video_t) (want_pal hz : Int) (ok : Bool) :
    ((hz ≤ 0 ∨ 1000 < hz) → pd_graphics_init v want_pal hz ok = (0, v)) ∧
    (0 < hz → hz ≤ 1000 →
      (pd_graphics_init v want_pal hz ok).2.height =
        (if want_pal ≠ 0 then 240 else 224) ∧
      (pd_graphics_init v want_pal hz ok).2.is_pal =
        (if want_pal ≠ 0 then 1 else 0) ∧
      (pd_graphics_init v want_pal hz ok).2.hz = hz) := by
  unfold pd_graphics_init
  constructor
  · intro h
    rw [if_pos h]
  · intro h1 h2
    rw [if_neg (by omega)]
    by_cases hp : want_pal ≠ 0 <;> cases ok <;> simp [hp]

/-- Witness for C6 at `hz = 60`, both PAL and NTSC, plus the two invalid
frame rates of the spec scenario. -/
theorem pd_graphics_init_spec_witness :
    pd_graphics_init ⟨50, 1, 240⟩ 0 0 true = (0, ⟨50, 1, 240⟩) ∧
    pd_graphics_init ⟨50, 1, 240⟩ 0 1001 true = (0, ⟨50, 1, 240⟩) ∧
    (pd_graphics_init ⟨50, 1, 240⟩ 0 60 true).2.height = 224 ∧
    (pd_graphics_init ⟨50, 1, 240⟩ 1 60 true).2.height = 240 := by
  refine ⟨(pd_graphics_init_spec ⟨50, 1, 240⟩ 0 0 true).1 (by norm_num),
          (pd_graphics_init_spec ⟨50, 1, 240⟩ 0 1001 true).1 (by norm_num),
          ?_, ?_⟩
  · have := ((pd_graphics_init_spec ⟨50, 1, 240⟩ 0 60 true).2 (by norm_num) (by norm_num)).1
    simpa using this
  · have := ((pd_graphics_init_spec ⟨50, 1, 240⟩ 1 60 true).2 (by norm_num) (by norm_num)).1
    simpa using this

/-- The Delete branch of `kb_input` always touches bytes at indices `size`
and `size + 1`: the moved tail is `(size - pos) + 1` bytes long starting
at `pos + 1`, so its last source index is `size + 1` and its last
destination index is `size`, for every cursor position `pos ≤ size`. -/
theorem kb_delete_oob_general (size pos : Nat) (h : pos ≤ size) :
    (size + 1) ∈ kb_delete_read_indices size pos ∧
    size ∈ kb_delete_write_indices size pos := by
  constructor
  · simp only [kb_delete_read_indices, List.mem_map, List.mem_range]
    exact ⟨size - pos, by omega, by omega⟩
  · simp only [kb_delete_write_indices, List.mem_map, List.mem_range]
    exact ⟨size - pos, by omega, by omega⟩

/-- C10 is refuted by the code: with the game-genie input buffer
(`size = 12`) and cursor position 0, the Delete branch reads byte indices
12 and 13 and writes byte index 12, and the Backspace branch (cursor 1,
decremented to 0) reads index 13 — all at or beyond `size`, contradicting
the claim that every access lies within `[0, size)`. -/
theorem kb_input_oob_at_failing_input :
    12 ∈ kb_delete_write_indices 12 0 ∧
    13 ∈ kb_delete_read_indices 12 0 ∧
    13 ∈ kb_backspace_read_indices 12 0 := by
  decide

/-- Calibration invariant: in this port of `manage_calibration` no code
path ever assigns `true` to a step's `twice` flag, so the following holds
of every reachable state. -/
def cal_inv (cs : cal_state) : Prop :=
  cs.steps ≠ [] ∧ (∀ st ∈ cs.steps, st.twice = false) ∧ cs.committed = []

theorem manage_calibration_step (cs : cal_state) (ty : rc_binding_type)
    (code : Int) (h : cal_inv cs) :
    cal_inv (manage_calibration cs ty code) ∧
    (manage_calibration cs ty code).calibrating = true ∧
    (manage_calibration cs ty code).frz =
      (if cs.calibrating then cs.frz else freeze true cs.frz) := by
  obtain ⟨cal, ctrl, steps, frz, com⟩ := cs
  obtain ⟨hne, htw, hcom⟩ := h
  dsimp only at hne htw hcom ⊢
  subst hcom
  obtain ⟨s0, rest, rfl⟩ := List.exists_cons_of_ne_nil hne
  have htw0 : s0.twice = false := htw s0 (List.mem_cons_self _ _)
  cases cal with
  | false =>
      simp only [manage_calibration, cal_ask, cal_inv]
      simp only [List.length_cons]
      refine ⟨⟨by simp, ?_, by simp⟩, by simp, by simp⟩
      simpa using htw
  | true =>
      have hidx : (s0 :: rest).findIdx (fun st => !(st.once && st.twice)) = 0 := by
        rw [List.findIdx_cons]
        simp [htw0]
      simp only [manage_calibration, hidx]
      by_cases h0 : s0.once
      · simp [cal_inv, List.getD_cons_zero, h0, htw0]
        exact fun a ha => htw a (List.mem_cons_of_mem _ ha)
      · simp [cal_inv, List.getD_cons_zero, eq_false_of_ne_true h0, htw0]
        exact fun a ha => htw a (List.mem_cons_of_mem _ ha)

theorem cal_run_inv (evs : List (rc_binding_type × Int)) (cs : cal_state)
    (h : cal_inv cs) : cal_inv (cal_run cs evs) := by
  induction evs generalizing cs with
  | nil => exact h
  | cons e evs ih =>
      exact ih _ (manage_calibration_step cs e.1 e.2 h).1

/-- C1 is refuted by the code (the branch that would set a step's `twice`
flag on the second input is absent from this port): after the `calibrate`
entry call and exactly two physical inputs for each of the 12 steps, the
machine is still calibrating, no step has been twice-confirmed, only the
first step even has its `once` flag set, nothing was committed to the
control table, and the freeze reference is still held. -/
theorem calibration_two_inputs_never_complete :
    (cal_run cal_init cal_two_per_step_events).calibrating = true ∧
    ((cal_run cal_init cal_two_per_step_events).steps.all fun st => !st.twice) = true ∧
    ((cal_run cal_init cal_two_per_step_events).steps.countP fun st => st.once) = 1 ∧
    (cal_run cal_init cal_two_per_step_events).committed = [] ∧
    (cal_run cal_init cal_two_per_step_events).frz.pd_freeze_ref = 1 := by
  decide

theorem filters_drop_one_length (l : List filter) :
    (filters_drop_one l).length = l.length ∨
    (filters_drop_one l).length + 1 = l.length := by
  induction l with
  | nil => simp [filters_drop_one]
  | cons f rest ih =>
      by_cases hs : f.safe
      · rcases ih with h | h
        · left; simp [filters_drop_one, hs, h]
        · right; simp [filters_drop_one, hs]; omega
      · right; simp [filters_drop_one, hs]

theorem filters_count_buffers_len {l : List filter}
    (h : filters_count_buffers l ≠ 0) : 2 ≤ l.length := by
  have h1 : l.dropLast ≠ [] := by
    intro he
    apply h
    simp [filters_count_buffers, he]
  have h2 : 1 ≤ l.dropLast.length := List.length_pos.mpr h1
  have h3 : l.dropLast.length = l.length - 1 := List.length_dropLast l
  have h4 : l ≠ [] := by
    intro he
    subst he
    simp at h1
  have h5 : 1 ≤ l.length := List.length_pos.mpr h4
  omega

theorem filters_update_step_inl {alloc : Nat → Bool} {st : filters_state}
    {c : Nat} {st2 : filters_state} {c2 : Nat}
    (h : filters_update_step alloc st c = Sum.inl (st2, c2)) :
    st2.stack ≠ [] ∧
    (st.stack ≠ [] → st.isDefault = false → st2.isDefault = false) := by
  unfold filters_update_step at h
  by_cases he : st.stack.isEmpty
  · rw [if_pos he] at h
    injection h with h
    injection h with h1 h2
    subst h1
    exact ⟨by simp [filters_available],
      fun hne _ => absurd (List.isEmpty_iff.mp he) hne⟩
  · rw [if_neg he] at h
    by_cases hd : 1 < st.stack.length ∧ st.isDefault = true
    · rw [if_pos hd] at h
      injection h with h
      injection h with h1 h2
      subst h1
      refine ⟨?_, fun _ _ => rfl⟩
      have h2l : 1 < st.stack.length := hd.1
      simp only [ne_eq, ← List.length_pos, List.length_drop]
      omega
    · rw [if_neg hd] at h
      by_cases hb : filters_count_buffers st.stack = 0
      · rw [if_pos hb] at h
        exact absurd h (by simp)
      · rw [if_neg hb] at h
        by_cases ha : (filters_alloc_run alloc c (min (filters_count_buffers st.stack) 2)).1
        · rw [if_pos ha] at h
          exact absurd h (by simp)
        · rw [if_neg ha] at h
          by_cases hl : (filters_drop_one st.stack).length < st.stack.length
          · rw [if_pos hl] at h
            injection h with h
            injection h with h1 h2
            subst h1
            have h2l : 2 ≤ st.stack.length := filters_count_buffers_len hb
            refine ⟨?_, fun _ hdf => hdf ▸ rfl⟩
            have : 1 ≤ (filters_drop_one st.stack).length := by
              rcases filters_drop_one_length st.stack with h | h <;> omega
            simp only [ne_eq, ← List.length_pos]
            omega
          · rw [if_neg hl] at h
            exact absurd h (by simp)

theorem filters_update_step_inr {alloc : Nat → Bool} {st : filters_state}
    {c : Nat} {st2 : filters_state}
    (h : filters_update_step alloc st c = Sum.inr st2) :
    st2 = st ∧ st.stack ≠ [] := by
  unfold filters_update_step at h
  by_cases he : st.stack.isEmpty
  · rw [if_pos he] at h
    exact absurd h (by simp)
  · rw [if_neg he] at h
    have hne : st.stack ≠ [] := by
      intro habs
      exact he (by simp [habs])
    by_cases hd : 1 < st.stack.length ∧ st.isDefault = true
    · rw [if_pos hd] at h
      exact absurd h (by simp)
    · rw [if_neg hd] at h
      by_cases hb : filters_count_buffers st.stack = 0
      · rw [if_pos hb] at h
        injection h with h
        exact ⟨h.symm, hne⟩
      · rw [if_neg hb] at h
        by_cases ha : (filters_alloc_run alloc c (min (filters_count_buffers st.stack) 2)).1
        · rw [if_pos ha] at h
          injection h with h
          exact ⟨h.symm, hne⟩
        · rw [if_neg ha] at h
          by_cases hl : (filters_drop_one st.stack).length < st.stack.length
          · rw [if_pos hl] at h
            exact absurd h (by simp)
          · rw [if_neg hl] at h
            injection h with h
            exact ⟨h.symm, hne⟩

theorem filters_update_iter_ne_nil (alloc : Nat → Bool) :
    ∀ (fuel : Nat) (st : filters_state) (c : Nat),
      (st.stack ≠ [] ∨ 1 ≤ fuel) →
      (filters_update_iter alloc fuel st c).stack ≠ [] := by
  intro fuel
  induction fuel with
  | zero =>
      intro st c h
      rcases h with h | h
      · exact h
      · omega
  | succ fuel ih =>
      intro st c _
      show (match filters_update_step alloc st c with
            | Sum.inl (st2, c2) => filters_update_iter alloc fuel st2 c2
            | Sum.inr st2 => st2).stack ≠ []
      cases hstep : filters_update_step alloc st c with
      | inl p =>
          obtain ⟨st2, c2⟩ := p
          exact ih st2 c2 (Or.inl (filters_update_step_inl hstep).1)
      | inr st2 =>
          obtain ⟨heq, hne⟩ := filters_update_step_inr hstep
          simpa [heq] using hne

theorem filters_update_iter_no_default (alloc : Nat → Bool) :
    ∀ (fuel : Nat) (st : filters_state) (c : Nat),
      st.stack ≠ [] → st.isDefault = false →
      (filters_update_iter alloc fuel st c).isDefault = false := by
  intro fuel
  induction fuel with
  | zero => intro st c _ h; exact h
  | succ fuel ih =>
      intro st c hne hdf
      show (match filters_update_step alloc st c with
            | Sum.inl (st2, c2) => filters_update_iter alloc fuel st2 c2
            | Sum.inr st2 => st2).isDefault = false
      cases hstep : filters_update_step alloc st c with
      | inl p =>
          obtain ⟨st2, c2⟩ := p
          have h1 := filters_update_step_inl hstep
          have : ¬st.stack.isEmpty := by simpa using hne
          exact ih st2 c2 h1.1 (h1.2 hne hdf)
      | inr st2 =>
          obtain ⟨heq, _⟩ := filters_update_step_inr hstep
          simpa [heq] using hdf

/-- C5, amended: after any mutation followed by `filters_stack_update` the
stack is never empty; when the user-visible stack is empty, a default
stage is auto-inserted so the stack length is exactly 1 — but that stage
is `filters_available[0]`, the stretch filter, not an identity or
passthrough stage — and once any real stage is present the auto-inserted
default stage is removed (its flag is cleared and the head dropped). -/
theorem filters_stack_update_spec :
    (∀ (alloc : Nat → Bool) (st : filters_state),
      (filters_stack_update alloc st).stack ≠ []) ∧
    (∀ (alloc : Nat → Bool) (d : Bool),
      filters_stack_update alloc ⟨[], d⟩ =
        ⟨[⟨"stretch", false, false, true⟩], true⟩) ∧
    (∀ (alloc : Nat → Bool) (st : filters_state),
      1 < st.stack.length → st.isDefault = true →
      (filters_stack_update alloc st).isDefault = false) := by
  refine ⟨?_, ?_, ?_⟩
  · intro alloc st
    exact filters_update_iter_ne_nil alloc _ st 0 (Or.inr (by omega))
  · intro alloc d
    rfl
  · intro alloc st hlen hdef
    have hne : ¬st.stack.isEmpty := by
      rw [List.isEmpty_iff]
      intro habs
      rw [habs] at hlen
      simp at hlen
    have hstep : filters_update_step alloc st 0 =
        Sum.inl (⟨st.stack.drop 1, false⟩, 0) := by
      unfold filters_update_step
      rw [if_neg hne, if_pos ⟨hlen, hdef⟩]
    show (filters_update_iter alloc (2 * st.stack.length + 11 + 1) st 0).isDefault = false
    rw [show filters_update_iter alloc (2 * st.stack.length + 11 + 1) st 0 =
          (match filters_update_step alloc st 0 with
           | Sum.inl (st2, c2) =>
               filters_update_iter alloc (2 * st.stack.length + 11) st2 c2
           | Sum.inr st2 => st2) from rfl, hstep]
    apply filters_update_iter_no_default
    · simp only [ne_eq, ← List.length_pos, List.length_drop]
      omega
    · rfl

/-- Witness for C5 at a concrete two-stage stack carrying the default
flag: the default head is removed by the update. -/
theorem filters_stack_update_spec_witness :
    (1 : Nat) < 2 ∧
    (filters_stack_update (fun _ => true)
      ⟨[⟨"stretch", false, false, true⟩, ⟨"scale", false, false, true⟩],
        true⟩).isDefault = false := by
  refine ⟨by omega, ?_⟩
  exact filters_stack_update_spec.2.2 (fun _ => true)
    ⟨[⟨"stretch", false, false, true⟩, ⟨"scale", false, false, true⟩], true⟩
    (by simp) rfl

/-- Counterexample to C5 as stated: running `filters_stack_update` on an
empty stack auto-inserts `filters_available[0]`, which is the stretch
stage — a resizing filter, not an identity/passthrough stage (no such
stage exists in this port's catalog; the names are "stretch" and "scale"
only). -/
theorem filters_default_stage_is_stretch :
    (filters_stack_update (fun _ => true) ⟨[], false⟩).stack =
      [⟨"stretch", false, false, true⟩] ∧
    ((⟨"stretch", false, false, true⟩ : filter)).resize = true ∧
    (filters_available.map (fun f => f.name)) = ["stretch", "scale"] := by
  exact ⟨rfl, rfl, rfl⟩

theorem takeWhile_append_of_stop {α : Type} (p : α → Bool) (X Y : List α)
    (h : ∃ x ∈ X, p x = false) : (X ++ Y).takeWhile p = X.takeWhile p := by
  induction X with
  | nil => simp at h
  | cons x X ih =>
      by_cases hx : p x
      · obtain ⟨w, hw, hwp⟩ := h
        rcases List.mem_cons.mp hw with h1 | h1
        · subst h1
          rw [hx] at hwp
          cases hwp
        · simp only [List.cons_append, List.takeWhile_cons, hx]
          rw [ih ⟨w, h1, hwp⟩]
      · have hx2 : p x = false := eq_false_of_ne_true hx
        simp [List.takeWhile_cons, hx2]

theorem manage_combos_cons_unassigned (e : rc_binding_item)
    (rest : List rc_binding_item) (pressed : Bool) (ty : rc_binding_type)
    (code : Int) (he : e.assigned = false) :
    manage_combos (e :: rest) pressed ty code =
      (if pressed then ⟨true, ty, code⟩ :: rest else e :: rest) := by
  simp [manage_combos, he]

theorem manage_combos_cons_nomatch (e : rc_binding_item)
    (rest : List rc_binding_item) (pressed : Bool) (ty : rc_binding_type)
    (code : Int) (he : e.assigned = true)
    (hm : (decide (e.type = ty) && decide (e.code = code)) = false) :
    manage_combos (e :: rest) pressed ty code =
      e :: manage_combos rest pressed ty code := by
  simp [manage_combos, he, hm]

theorem manage_combos_cons_match (e : rc_binding_item)
    (rest : List rc_binding_item) (pressed : Bool) (ty : rc_binding_type)
    (code : Int) (he : e.assigned = true)
    (hm : (decide (e.type = ty) && decide (e.code = code)) = true) :
    manage_combos (e :: rest) pressed ty code =
      (if pressed then e :: rest
       else rest ++ [(e :: rest).getLast?.getD default]) := by
  simp only [Bool.and_eq_true, decide_eq_true_eq] at hm
  simp [manage_combos, he, hm.1, hm.2]

theorem combos_tracked_cons_assigned (e : rc_binding_item)
    (rest : List rc_binding_item) (he : e.assigned = true) :
    combos_tracked (e :: rest) = (e.type, e.code) :: combos_tracked rest := by
  simp [combos_tracked, List.takeWhile_cons, he]

theorem combos_tracked_cons_unassigned (e : rc_binding_item)
    (rest : List rc_binding_item) (he : e.assigned = false) :
    combos_tracked (e :: rest) = [] := by
  simp [combos_tracked, List.takeWhile_cons, he]

theorem combo_present_cons_assigned (e : rc_binding_item)
    (rest : List rc_binding_item) (ty : rc_binding_type) (code : Int)
    (he : e.assigned = true) :
    combo_present (e :: rest) ty code =
      ((decide (e.type = ty) && decide (e.code = code)) ||
        combo_present rest ty code) := by
  simp [combo_present, List.takeWhile_cons, he]

theorem combo_present_cons_unassigned (e : rc_binding_item)
    (rest : List rc_binding_item) (ty : rc_binding_type) (code : Int)
    (he : e.assigned = false) :
    combo_present (e :: rest) ty code = false := by
  simp [combo_present, List.takeWhile_cons, he]

theorem combos_wf_cons {e : rc_binding_item} {rest : List rc_binding_item}
    (h : combos_wf (e :: rest)) (he : e.assigned = true) : combos_wf rest := by
  intro x hx
  apply h
  simpa [List.dropWhile_cons, he] using hx

theorem combos_wf_cons_unassigned {e : rc_binding_item}
    {rest : List rc_binding_item} (h : combos_wf (e :: rest))
    (he : e.assigned = false) : ∀ x ∈ rest, x.assigned = false := by
  intro x hx
  apply h
  simp only [List.dropWhile_cons, he]
  simp only [Bool.false_eq_true, if_false]
  exact List.mem_cons_of_mem _ hx

theorem combos_free_tail {e : rc_binding_item} {rest : List rc_binding_item}
    (hfree : ∃ x ∈ e :: rest, x.assigned = false) (he : e.assigned = true) :
    ∃ x ∈ rest, x.assigned = false := by
  obtain ⟨w, hw, hwa⟩ := hfree
  rcases List.mem_cons.mp hw with h1 | h1
  · subst h1
    rw [he] at hwa
    cases hwa
  · exact ⟨w, h1, hwa⟩

theorem manage_combos_press_present (l : List rc_binding_item)
    (ty : rc_binding_type) (code : Int) (hwf : combos_wf l)
    (hp : combo_present l ty code = true) :
    manage_combos l true ty code = l := by
  induction l with
  | nil => simp [combo_present] at hp
  | cons e rest ih =>
      by_cases he : e.assigned
      · by_cases hm : (decide (e.type = ty) && decide (e.code = code)) = true
        · rw [manage_combos_cons_match e rest true ty code he hm, if_pos rfl]
        · have hm2 := eq_false_of_ne_true hm
          rw [manage_combos_cons_nomatch e rest true ty code he hm2]
          rw [combo_present_cons_assigned e rest ty code he, hm2,
            Bool.false_or] at hp
          rw [ih (combos_wf_cons hwf he) hp]
      · have he2 : e.assigned = false := eq_false_of_ne_true he
        rw [combo_present_cons_unassigned e rest ty code he2] at hp
        cases hp

theorem manage_combos_press_absent (l : List rc_binding_item)
    (ty : rc_binding_type) (code : Int) (hwf : combos_wf l)
    (hp : combo_present l ty code = false)
    (hfree : ∃ x ∈ l, x.assigned = false) :
    combos_tracked (manage_combos l true ty code) =
      combos_tracked l ++ [(ty, code)] := by
  induction l with
  | nil => simp at hfree
  | cons e rest ih =>
      by_cases he : e.assigned
      · rw [combo_present_cons_assigned e rest ty code he, Bool.or_eq_false_iff] at hp
        rw [manage_combos_cons_nomatch e rest true ty code he hp.1,
          combos_tracked_cons_assigned e _ he,
          combos_tracked_cons_assigned e rest he,
          ih (combos_wf_cons hwf he) hp.2 (combos_free_tail hfree he)]
        simp
      · have he2 : e.assigned = false := eq_false_of_ne_true he
        have hall := combos_wf_cons_unassigned hwf he2
        rw [manage_combos_cons_unassigned e rest true ty code he2, if_pos rfl,
          combos_tracked_cons_assigned _ rest rfl,
          combos_tracked_cons_unassigned e rest he2]
        have htk : combos_tracked rest = [] := by
          cases hr : rest with
          | nil => simp [combos_tracked]
          | cons r rs =>
              have : r.assigned = false :=
                hall r (by rw [hr]; exact List.mem_cons_self _ _)
              exact combos_tracked_cons_unassigned r rs this
        rw [htk]
        simp

theorem manage_combos_release (l : List rc_binding_item)
    (ty : rc_binding_type) (code : Int) (hwf : combos_wf l)
    (hfree : ∃ x ∈ l, x.assigned = false) :
    combos_tracked (manage_combos l false ty code) =
      (combos_tracked l).erase (ty, code) := by
  induction l with
  | nil => simp at hfree
  | cons e rest ih =>
      by_cases he : e.assigned
      · have hfree2 := combos_free_tail hfree he
        by_cases hm : (decide (e.type = ty) && decide (e.code = code)) = true
        · rw [manage_combos_cons_match e rest false ty code he hm]
          simp only [Bool.false_eq_true, if_false]
          simp only [Bool.and_eq_true, decide_eq_true_eq] at hm
          rw [combos_tracked_cons_assigned e rest he]
          have hpair : ((e.type, e.code) : rc_binding_type × Int) = (ty, code) := by
            rw [hm.1, hm.2]
          rw [hpair, List.erase_cons_head]
          obtain ⟨w, hw, hwa⟩ := hfree2
          simp only [combos_tracked]
          rw [takeWhile_append_of_stop _ rest _ ⟨w, hw, hwa⟩]
        · have hm2 := eq_false_of_ne_true hm
          rw [manage_combos_cons_nomatch e rest false ty code he hm2,
            combos_tracked_cons_assigned e _ he,
            combos_tracked_cons_assigned e rest he,
            ih (combos_wf_cons hwf he) hfree2,
            List.erase_cons_tail]
          simp only [beq_iff_eq]
          intro habs
          have h1 : e.type = ty := congrArg Prod.fst habs
          have h2 : e.code = code := congrArg Prod.snd habs
          rw [h1, h2] at hm2
          simp at hm2
      · have he2 : e.assigned = false := eq_false_of_ne_true he
        rw [manage_combos_cons_unassigned e rest false ty code he2]
        simp only [Bool.false_eq_true, if_false]
        rw [combos_tracked_cons_unassigned e rest he2]
        simp

theorem combo_present_iff (combos : List rc_binding_item)
    (ty : rc_binding_type) (code : Int) :
    combo_present combos ty code = true ↔
      (ty, code) ∈ combos_tracked combos := by
  simp only [combo_present, combos_tracked, List.any_eq_true, List.mem_map]
  constructor
  · rintro ⟨e, he, hp⟩
    simp only [Bool.and_eq_true, decide_eq_true_eq] at hp
    exact ⟨e, he, by rw [hp.1, hp.2]⟩
  · rintro ⟨e, he, hp⟩
    refine ⟨e, he, ?_⟩
    have h1 : e.type = ty := congrArg Prod.fst hp
    have h2 : e.code = code := congrArg Prod.snd hp
    simp [h1, h2]

theorem check_combos_iff (combos item : List rc_binding_item) :
    check_combos combos item = true ↔
      (item.takeWhile (fun e => e.assigned) ≠ [] ∧
        ∀ e ∈ item.takeWhile (fun e => e.assigned),
          (e.type, e.code) ∈ combos_tracked combos) := by
  simp only [check_combos, Bool.and_eq_true, decide_eq_true_eq, beq_iff_eq,
    List.countP_eq_length]
  constructor
  · rintro ⟨h1, h2⟩
    refine ⟨fun habs => h1 (by rw [habs]; rfl), ?_⟩
    intro e he
    exact (combo_present_iff combos e.type e.code).mp (h2 e he)
  · rintro ⟨h1, h2⟩
    refine ⟨fun habs => h1 (List.eq_nil_of_length_eq_zero habs), ?_⟩
    intro e he
    exact (combo_present_iff combos e.type e.code).mpr (h2 e he)

/-- C8, amended: combo tracking.  A press of an already-tracked pair
changes nothing; a press of an absent pair, while a slot is free, appends
it to the tracked set; a release, while a slot is free, removes the first
matching tracked entry and compacts the set (releasing an untracked pair
changes nothing, matching erasure of an absent element); `check_combos`
returns true iff the requested combo is non-empty and every assigned
member of it is currently tracked.  In particular pressing codes 1 then 2
and releasing 1 leaves exactly 2 tracked, and `check({1,2})` is true
while both are held and false after the release.  (At full capacity — all
64 slots assigned — a release can fail to remove; see the
counterexample.) -/
theorem combos_spec :
    (∀ (l : List rc_binding_item) (ty : rc_binding_type) (code : Int),
      combos_wf l → combo_present l ty code = true →
      manage_combos l true ty code = l) ∧
    (∀ (l : List rc_binding_item) (ty : rc_binding_type) (code : Int),
      combos_wf l → combo_present l ty code = false →
      (∃ x ∈ l, x.assigned = false) →
      combos_tracked (manage_combos l true ty code) =
        combos_tracked l ++ [(ty, code)]) ∧
    (∀ (l : List rc_binding_item) (ty : rc_binding_type) (code : Int),
      combos_wf l → (∃ x ∈ l, x.assigned = false) →
      combos_tracked (manage_combos l false ty code) =
        (combos_tracked l).erase (ty, code)) ∧
    (∀ combos item : List rc_binding_item,
      check_combos combos item = true ↔
        (item.takeWhile (fun e => e.assigned) ≠ [] ∧
          ∀ e ∈ item.takeWhile (fun e => e.assigned),
            (e.type, e.code) ∈ combos_tracked combos)) ∧
    (combos_tracked
        (manage_combos
          (manage_combos (manage_combos combos_init true rc_binding_type.RCBK 1)
            true rc_binding_type.RCBK 2)
          false rc_binding_type.RCBK 1) =
      [(rc_binding_type.RCBK, 2)]) ∧
    (check_combos
        (manage_combos (manage_combos combos_init true rc_binding_type.RCBK 1)
          true rc_binding_type.RCBK 2)
        [⟨true, rc_binding_type.RCBK, 1⟩, ⟨true, rc_binding_type.RCBK, 2⟩] = true) ∧
    (check_combos
        (manage_combos
          (manage_combos (manage_combos combos_init true rc_binding_type.RCBK 1)
            true rc_binding_type.RCBK 2)
          false rc_binding_type.RCBK 1)
        [⟨true, rc_binding_type.RCBK, 1⟩, ⟨true, rc_binding_type.RCBK, 2⟩] = false) := by
  refine ⟨manage_combos_press_present, manage_combos_press_absent,
    manage_combos_release, check_combos_iff, ?_, ?_, ?_⟩ <;>
    (set_option maxRecDepth 4000 in decide)

/-- Witness for C8: the press-append clause applied to the empty tracked
set and the pair (RCBK, 1). -/
theorem combos_spec_witness :
    combos_wf combos_init ∧
    combo_present combos_init rc_binding_type.RCBK 1 = false ∧
    (∃ x ∈ combos_init, x.assigned = false) ∧
    combos_tracked (manage_combos combos_init true rc_binding_type.RCBK 1) =
      combos_tracked combos_init ++ [(rc_binding_type.RCBK, 1)] := by
  have h1 : combos_wf combos_init := by
    intro x hx
    have hsub : x ∈ combos_init := (List.dropWhile_sublist _).mem hx
    unfold combos_init at hsub
    rw [List.eq_of_mem_replicate hsub]
    rfl
  have h2 : combo_present combos_init rc_binding_type.RCBK 1 = false := by
    set_option maxRecDepth 4000 in decide
  have h3 : ∃ x ∈ combos_init, x.assigned = false :=
    ⟨default, by simp [combos_init, combos_capacity], rfl⟩
  exact ⟨h1, h2, h3, combos_spec.2.1 combos_init rc_binding_type.RCBK 1 h1 h2 h3⟩

/-- Counterexample to C8 as stated: with all 64 slots occupied, releasing
the pair stored in the last slot changes nothing — the `memmove` at
sdl.cpp:2705 moves `64 - (i + 1) = 0` entries — so the released pair is
still tracked, refuting the unqualified claim that a release removes the
matching entry. -/
theorem combos_release_full_slot_not_removed :
    manage_combos combos_full false rc_binding_type.RCBK 63 = combos_full ∧
    (rc_binding_type.RCBK, (63 : Int)) ∈
      combos_tracked (manage_combos combos_full false rc_binding_type.RCBK 63) := by
  set_option maxRecDepth 8000 in decide

/-! ### Circular buffer lemmas -/

theorem mod_two_cases (a n : Nat) (hn : 0 < n) (h : a < 2 * n) :
    a % n = if a < n then a else a - n := by
  by_cases h1 : a < n
  · rw [if_pos h1, Nat.mod_eq_of_lt h1]
  · rw [if_neg h1, Nat.mod_eq_sub_mod (by omega), Nat.mod_eq_of_lt (by omega)]

theorem mod_sub_helper (a b n : Nat) (hn : 0 < n) (hba : b ≤ a) :
    (a % n + n - b % n) % n = (a - b) % n := by
  have hb : b % n < n := Nat.mod_lt _ hn
  have h1 : b % n ≤ a % n + n := by omega
  zify [h1, hba]
  push_cast
  rw [show ((a : Int) % n + n - b % n) = ((a : Int) % n - b % n + n * 1) by ring,
    Int.add_mul_emod_self_left, ← Int.sub_emod]

theorem list_ext_getD (l1 l2 : List Nat) (hl : l1.length = l2.length)
    (h : ∀ idx, idx < l1.length → l1.getD idx 0 = l2.getD idx 0) :
    l1 = l2 := by
  apply List.ext_getElem hl
  intro n h1 h2
  have h3 := h n h1
  rwa [List.getD_eq_getElem?_getD, List.getD_eq_getElem?_getD,
    List.getElem?_eq_getElem h1, List.getElem?_eq_getElem h2,
    Option.getD_some, Option.getD_some] at h3

theorem getD_append (a b : List Nat) (m : Nat) :
    (a ++ b).getD m 0 =
      if m < a.length then a.getD m 0 else b.getD (m - a.length) 0 := by
  by_cases h : m < a.length
  · rw [if_pos h, List.getD_eq_getElem?_getD, List.getD_eq_getElem?_getD,
      List.getElem?_append_left h]
  · rw [if_neg h, List.getD_eq_getElem?_getD, List.getD_eq_getElem?_getD,
      List.getElem?_append_right (by omega)]

theorem getD_drop (l : List Nat) (n m : Nat) :
    (l.drop n).getD m 0 = l.getD (n + m) 0 := by
  rw [List.getD_eq_getElem?_getD, List.getD_eq_getElem?_getD,
    List.getElem?_drop]

theorem getD_take (l : List Nat) (n m : Nat) (h : m < n) :
    (l.take n).getD m 0 = l.getD m 0 := by
  rw [List.getD_eq_getElem?_getD, List.getD_eq_getElem?_getD,
    List.getElem?_take_of_lt h]

theorem memcpy_length (dst : List Nat) (j : Nat) (src : List Nat)
    (h : j + src.length ≤ dst.length) :
    (memcpy dst j src).length = dst.length := by
  unfold memcpy
  rw [List.length_append, List.length_append, List.length_take,
    List.length_drop]
  omega

theorem memcpy_getD (dst : List Nat) (j : Nat) (src : List Nat) (q : Nat)
    (h : j + src.length ≤ dst.length) :
    (memcpy dst j src).getD q 0 =
      if j ≤ q ∧ q < j + src.length then src.getD (q - j) 0
      else dst.getD q 0 := by
  unfold memcpy
  have hjt : (dst.take j).length = j := by
    rw [List.length_take]
    omega
  have hlen2 : (dst.take j ++ src).length = j + src.length := by
    rw [List.length_append, hjt]
  rw [getD_append, hlen2, getD_append, hjt]
  rcases Nat.lt_or_ge q j with h1 | h1
  · rw [if_pos (show q < j + src.length by omega), if_pos h1,
      getD_take _ _ _ h1,
      if_neg (show ¬(j ≤ q ∧ q < j + src.length) by omega)]
  · rcases Nat.lt_or_ge q (j + src.length) with h2 | h2
    · rw [if_pos (show q < j + src.length from h2),
        if_neg (show ¬q < j by omega),
        if_pos (show j ≤ q ∧ q < j + src.length from ⟨h1, h2⟩)]
    · rw [if_neg (show ¬q < j + src.length by omega),
        if_neg (show ¬(j ≤ q ∧ q < j + src.length) by omega), getD_drop]
      congr 1
      omega

theorem cbuf_contents_length (c : cbuf_t) : (cbuf_contents c).length = c.s := by
  simp [cbuf_contents]

theorem cbuf_contents_getD (c : cbuf_t) (idx : Nat) (h : idx < c.s) :
    (cbuf_contents c).getD idx 0 = c.data.getD ((c.i + idx) % c.size) 0 := by
  unfold cbuf_contents
  rw [List.getD_eq_getElem?_getD, List.getElem?_map, List.getElem?_range h]
  simp

theorem cbuf_copy_length (data : List Nat) (size j : Nat) (src : List Nat)
    (hd : data.length = size) (hj : j < size) (hl : src.length ≤ size) :
    (cbuf_copy data size j src).length = size := by
  unfold cbuf_copy
  by_cases h : size - j ≥ src.length
  · rw [if_pos h, memcpy_length _ _ _ (by omega)]
    exact hd
  · rw [if_neg h]
    have h1 : (src.take (size - j)).length = size - j := by
      rw [List.length_take]
      omega
    have h2 : (memcpy data j (src.take (size - j))).length = size := by
      rw [memcpy_length _ _ _ (by omega)]
      exact hd
    rw [memcpy_length, h2]
    rw [h2, List.length_drop]
    omega

theorem cbuf_copy_getD (data : List Nat) (size j : Nat) (src : List Nat)
    (q : Nat) (hd : data.length = size) (hj : j < size) (hl : src.length ≤ size)
    (hq : q < size) :
    (cbuf_copy data size j src).getD q 0 =
      (if (q + size - j) % size < src.length
       then src.getD ((q + size - j) % size) 0
       else data.getD q 0) := by
  have hmod : (q + size - j) % size =
      (if q < j then q + size - j else q - j) := by
    rw [mod_two_cases _ _ (by omega) (by omega)]
    by_cases h1 : q < j
    · rw [if_pos (by omega), if_pos h1]
    · rw [if_neg (by omega), if_neg h1]
      omega
  unfold cbuf_copy
  by_cases hcase : size - j ≥ src.length
  · rw [if_pos hcase, memcpy_getD _ _ _ _ (by omega)]
    by_cases h1 : q < j
    · have hd2 : (q + size - j) % size = q + size - j := by
        rw [hmod, if_pos h1]
      rw [if_neg (show ¬(j ≤ q ∧ q < j + src.length) by omega), hd2,
        if_neg (show ¬(q + size - j < src.length) by omega)]
    · by_cases h2 : q - j < src.length
      · have hd2 : (q + size - j) % size = q - j := by
          rw [hmod, if_neg h1]
        rw [if_pos (show j ≤ q ∧ q < j + src.length by omega), hd2,
          if_pos (show q - j < src.length from h2)]
      · have hd2 : (q + size - j) % size = q - j := by
          rw [hmod, if_neg h1]
        rw [if_neg (show ¬(j ≤ q ∧ q < j + src.length) by omega), hd2,
          if_neg (show ¬(q - j < src.length) from h2)]
  · rw [if_neg hcase]
    have h1 : (src.take (size - j)).length = size - j := by
      rw [List.length_take]
      omega
    have h2 : (memcpy data j (src.take (size - j))).length = size := by
      rw [memcpy_length]
      · exact hd
      · rw [h1]
        omega
    have h3 : (src.drop (size - j)).length = src.length - (size - j) := by
      rw [List.length_drop]
    rw [memcpy_getD _ 0 _ _ (by rw [h2, h3]; omega)]
    simp only [Nat.zero_add, Nat.sub_zero, Nat.zero_le, true_and]
    rw [h3]
    by_cases hA : q < src.length - (size - j)
    · have hqj : q < j := by omega
      have hd2 : (q + size - j) % size = q + size - j := by
        rw [hmod, if_pos hqj]
      rw [if_pos (show q < src.length - (size - j) from hA), getD_drop, hd2,
        if_pos (show q + size - j < src.length by omega)]
      congr 1
      omega
    · rw [if_neg (show ¬(q < src.length - (size - j)) from hA),
        memcpy_getD _ _ _ _ (by rw [h1, hd]; omega), h1]
      by_cases hB : j ≤ q
      · have hd2 : (q + size - j) % size = q - j := by
          rw [hmod, if_neg (by omega)]
        rw [if_pos (show j ≤ q ∧ q < j + (size - j) by omega),
          getD_take _ _ _ (show q - j < size - j by omega), hd2,
          if_pos (show q - j < src.length by omega)]
      · have hd2 : (q + size - j) % size = q + size - j := by
          rw [hmod, if_pos (by omega)]
        rw [if_neg (show ¬(j ≤ q ∧ q < j + (size - j)) by omega), hd2,
          if_neg (show ¬(q + size - j < src.length) by omega)]

theorem getD_map_range (f : Nat → Nat) (n idx : Nat) (h : idx < n) :
    ((List.range n).map f).getD idx 0 = f idx := by
  rw [List.getD_eq_getElem?_getD, List.getElem?_map, List.getElem?_range h]
  simp

theorem cbuf_contents_mk (i s size : Nat) (data : List Nat) :
    cbuf_contents ⟨i, s, size, data⟩ =
      (List.range s).map (fun idx => data.getD ((i + idx) % size) 0) := rfl

theorem cbuf_write_eq (c : cbuf_t) (src : List Nat) (h : src.length ≤ c.size) :
    cbuf_write c src =
      (⟨(if src.length > c.size - c.s
          then (c.i + (src.length - (c.size - c.s))) % c.size else c.i),
        (if src.length > c.size - c.s then c.size else c.s + src.length),
        c.size,
        cbuf_copy c.data c.size ((c.i + c.s) % c.size) src⟩, src.length) := by
  unfold cbuf_write
  rw [if_neg (show ¬(src.length > c.size) by omega)]

theorem cbuf_write_core (c : cbuf_t) (src : List Nat) (hinv : cbuf_inv c)
    (hlen : src.length ≤ c.size) :
    cbuf_inv (cbuf_write c src).1 ∧
    (cbuf_write c src).1.size = c.size ∧
    (cbuf_write c src).2 = src.length ∧
    cbuf_contents (cbuf_write c src).1 = takeLast (cbuf_contents c ++ src) c.size := by
  obtain ⟨hi, hs, hd⟩ := hinv
  have hsize : 0 < c.size := by omega
  have hj : (c.i + c.s) % c.size < c.size := Nat.mod_lt _ hsize
  have hdl : (cbuf_copy c.data c.size ((c.i + c.s) % c.size) src).length = c.size :=
    cbuf_copy_length _ _ _ _ hd hj hlen
  rw [cbuf_write_eq c src hlen]
  have hoff_i : (if src.length > c.size - c.s
      then (c.i + (src.length - (c.size - c.s))) % c.size else c.i) =
      (c.i + (c.s + src.length - c.size)) % c.size := by
    by_cases hov : src.length > c.size - c.s
    · rw [if_pos hov]
      congr 2
      omega
    · rw [if_neg hov]
      have h0 : c.s + src.length - c.size = 0 := by omega
      rw [h0, Nat.add_zero, Nat.mod_eq_of_lt hi]
  have hoff_s : (if src.length > c.size - c.s then c.size else c.s + src.length) =
      min c.size (c.s + src.length) := by
    by_cases hov : src.length > c.size - c.s
    · rw [if_pos hov, Nat.min_eq_left (by omega)]
    · rw [if_neg hov, Nat.min_eq_right (by omega)]
  rw [hoff_i, hoff_s]
  have hi2 : (c.i + (c.s + src.length - c.size)) % c.size < c.size :=
    Nat.mod_lt _ hsize
  refine ⟨⟨hi2, by simp, hdl⟩, rfl, rfl, ?_⟩
  apply list_ext_getD
  · rw [cbuf_contents_mk, List.length_map, List.length_range, takeLast,
      List.length_drop, List.length_append, cbuf_contents_length]
    omega
  · intro idx hidx
    rw [cbuf_contents_mk, List.length_map, List.length_range] at hidx
    rw [cbuf_contents_mk, getD_map_range _ _ _ hidx]
    rw [takeLast, getD_drop, List.length_append, cbuf_contents_length]
    have harg : c.s + src.length - c.size + idx =
        (c.s + src.length - c.size) + idx := rfl
    rw [getD_append, cbuf_contents_length]
    set off := c.s + src.length - c.size with hoffdef
    set pos := off + idx with hposdef
    have hpos_lt : pos < c.s + src.length := by omega
    have hq : ((c.i + off) % c.size + idx) % c.size = (c.i + pos) % c.size := by
      rw [Nat.mod_add_mod, hposdef, Nat.add_assoc]
    rw [hq]
    have hqlt : (c.i + pos) % c.size < c.size := Nat.mod_lt _ hsize
    rw [cbuf_copy_getD _ _ _ _ _ hd hj hlen hqlt]
    have hda : ((c.i + pos) % c.size + c.size - (c.i + c.s) % c.size) % c.size =
        (pos + c.size - c.s) % c.size := by
      have h1 : (c.i + pos) % c.size = (c.i + pos + c.size) % c.size := by
        rw [Nat.add_mod_right]
      rw [h1, mod_sub_helper (c.i + pos + c.size) (c.i + c.s) c.size hsize
        (by omega)]
      congr 1
      omega
    rw [hda]
    have hbound : pos + c.size - c.s < 2 * c.size := by omega
    rcases Nat.lt_or_ge pos c.s with hcase | hcase
    · have hdval : (pos + c.size - c.s) % c.size = pos + c.size - c.s := by
        rw [mod_two_cases _ _ hsize hbound, if_pos (by omega)]
      rw [hdval, if_neg (show ¬(pos + c.size - c.s < src.length) by omega),
        if_pos hcase, cbuf_contents_getD _ _ hcase]
    · have hdval : (pos + c.size - c.s) % c.size = pos - c.s := by
        rw [mod_two_cases _ _ hsize hbound, if_neg (by omega)]
        omega
      rw [hdval, if_pos (show pos - c.s < src.length by omega),
        if_neg (show ¬(pos < c.s) by omega)]

theorem takeLast_append_right (a b : List Nat) (n : Nat) (h : n ≤ b.length) :
    takeLast (a ++ b) n = takeLast b n := by
  unfold takeLast
  rw [List.length_append,
    show a.length + b.length - n = a.length + (b.length - n) by omega,
    List.drop_append]

theorem takeLast_all (l : List Nat) (n : Nat) (h : l.length ≤ n) :
    takeLast l n = l := by
  unfold takeLast
  rw [show l.length - n = 0 by omega, List.drop_zero]

theorem cbuf_write_clamp (c : cbuf_t) (src : List Nat)
    (h : c.size < src.length) :
    cbuf_write c src = cbuf_write c (src.drop (src.length - c.size)) := by
  unfold cbuf_write
  rw [if_pos (show src.length > c.size by omega),
    if_neg (show ¬((src.drop (src.length - c.size)).length > c.size) by
      rw [List.length_drop]; omega)]

/-- C2: for every well-formed circular buffer and every `cbuf_write`: the
call returns `min n cap`; when `n > cap` only the trailing `cap` bytes of
`src` are stored; afterwards the contents are exactly the most recent
`min cap (occupied + n)` bytes ever written (oldest bytes dropped). -/
theorem cbuf_write_spec (c : cbuf_t) (src : List Nat) (hinv : cbuf_inv c) :
    (cbuf_write c src).2 = min src.length c.size ∧
    cbuf_inv (cbuf_write c src).1 ∧
    cbuf_contents (cbuf_write c src).1 =
      takeLast (cbuf_contents c ++ src) c.size ∧
    (cbuf_contents (cbuf_write c src).1).length =
      min c.size (c.s + src.length) ∧
    (c.size ≤ src.length →
      cbuf_contents (cbuf_write c src).1 = src.drop (src.length - c.size)) := by
  have hs : c.s ≤ c.size := hinv.2.1
  rcases le_or_lt src.length c.size with hle | hlt
  · obtain ⟨h1, h2, h3, h4⟩ := cbuf_write_core c src hinv hle
    refine ⟨by rw [h3, Nat.min_eq_left hle], h1, h4, ?_, ?_⟩
    · rw [h4, takeLast, List.length_drop, List.length_append,
        cbuf_contents_length]
      omega
    · intro hge
      have hlen : src.length = c.size := by omega
      rw [h4, takeLast_append_right _ _ _ (by omega), takeLast_all _ _ (by omega),
        show src.length - c.size = 0 by omega, List.drop_zero]
  · rw [cbuf_write_clamp c src hlt]
    have hdlen : (src.drop (src.length - c.size)).length = c.size := by
      rw [List.length_drop]
      omega
    obtain ⟨h1, h2, h3, h4⟩ :=
      cbuf_write_core c (src.drop (src.length - c.size)) hinv (by omega)
    have hcont : cbuf_contents (cbuf_write c (src.drop (src.length - c.size))).1 =
        src.drop (src.length - c.size) := by
      rw [h4, takeLast_append_right _ _ _ (by omega), takeLast_all _ _ (by omega)]
    refine ⟨by rw [h3, hdlen, Nat.min_eq_right (by omega)], h1, ?_, ?_, fun _ => hcont⟩
    · rw [hcont, takeLast_append_right _ _ _ (by omega), takeLast]
    · rw [hcont, hdlen]
      omega

/-- Witness for C2 at a concrete buffer of capacity 4 holding 2 bytes,
written with 3 more: the two oldest bytes survive only partially — the
contents become the last 4 of [9, 8, 1, 2, 3]. -/
theorem cbuf_write_spec_witness :
    cbuf_inv ⟨0, 2, 4, [9, 8, 7, 6]⟩ ∧
    (cbuf_write ⟨0, 2, 4, [9, 8, 7, 6]⟩ [1, 2, 3]).2 = min 3 4 ∧
    cbuf_contents (cbuf_write ⟨0, 2, 4, [9, 8, 7, 6]⟩ [1, 2, 3]).1 =
      takeLast (cbuf_contents ⟨0, 2, 4, [9, 8, 7, 6]⟩ ++ [1, 2, 3]) 4 := by
  have h : cbuf_inv ⟨0, 2, 4, [9, 8, 7, 6]⟩ := ⟨by decide, by decide, rfl⟩
  have hspec := cbuf_write_spec ⟨0, 2, 4, [9, 8, 7, 6]⟩ [1, 2, 3] h
  exact ⟨h, hspec.1, hspec.2.2.1⟩

theorem cbuf_read_eq (c : cbuf_t) (n : Nat) :
    cbuf_read c n =
      ((if c.i + (if n > c.s then c.s else n) > c.size
        then (c.data.drop c.i).take (c.size - c.i) ++
          c.data.take ((if n > c.s then c.s else n) - (c.size - c.i))
        else (c.data.drop c.i).take (if n > c.s then c.s else n)),
       ⟨(c.i + (if n > c.s then c.s else n)) % c.size,
        c.s - (if n > c.s then c.s else n), c.size, c.data⟩) := rfl

theorem cbuf_read_spec (c : cbuf_t) (n : Nat) (hinv : cbuf_inv c) :
    (cbuf_read c n).1 = (cbuf_contents c).take n ∧
    (cbuf_read c n).1.length = min n c.s ∧
    cbuf_inv (cbuf_read c n).2 ∧
    cbuf_contents (cbuf_read c n).2 = (cbuf_contents c).drop n := by
  obtain ⟨hi, hs, hd⟩ := hinv
  have hsize : 0 < c.size := by omega
  rw [cbuf_read_eq c n]
  have hn2 : (if n > c.s then c.s else n) = min n c.s := by
    by_cases h : n > c.s
    · rw [if_pos h, Nat.min_eq_right (by omega)]
    · rw [if_neg h, Nat.min_eq_left (by omega)]
  rw [hn2]
  set n2 := min n c.s with hn2def
  have hn2s : n2 ≤ c.s := Nat.min_le_right _ _
  have hn2n : n2 ≤ n := Nat.min_le_left _ _
  have hdroplen : (c.data.drop c.i).length = c.size - c.i := by
    rw [List.length_drop, hd]
  have hdst : (if c.i + n2 > c.size
      then (c.data.drop c.i).take (c.size - c.i) ++
        c.data.take (n2 - (c.size - c.i))
      else (c.data.drop c.i).take n2) = (cbuf_contents c).take n := by
    by_cases hwrap : c.i + n2 > c.size
    · have htake1 : ((c.data.drop c.i).take (c.size - c.i)).length = c.size - c.i := by
        rw [List.length_take, hdroplen, Nat.min_self]
      have htake2 : (c.data.take (n2 - (c.size - c.i))).length = n2 - (c.size - c.i) := by
        rw [List.length_take, hd, Nat.min_eq_left (by omega)]
      rw [if_pos hwrap]
      apply list_ext_getD
      · rw [List.length_append, htake1, htake2, List.length_take,
          cbuf_contents_length]
        omega
      · intro idx hidx
        rw [List.length_append, htake1, htake2] at hidx
        have hidx2 : idx < n2 := by omega
        rw [getD_append, htake1,
          getD_take _ _ _ (show idx < n by omega),
          cbuf_contents_getD _ _ (show idx < c.s by omega)]
        by_cases hfst : idx < c.size - c.i
        · rw [if_pos hfst, getD_take _ _ _ hfst, getD_drop,
            Nat.mod_eq_of_lt (by omega)]
        · rw [if_neg hfst,
            getD_take _ _ _ (show idx - (c.size - c.i) < n2 - (c.size - c.i) by omega),
            mod_two_cases _ _ hsize (by omega), if_neg (by omega)]
          congr 1
          omega
    · rw [if_neg hwrap]
      apply list_ext_getD
      · rw [List.length_take, hdroplen, List.length_take, cbuf_contents_length]
        omega
      · intro idx hidx
        rw [List.length_take, hdroplen] at hidx
        have hidx2 : idx < n2 := by omega
        rw [getD_take _ _ _ hidx2, getD_drop,
          getD_take _ _ _ (show idx < n by omega),
          cbuf_contents_getD _ _ (show idx < c.s by omega),
          Nat.mod_eq_of_lt (by omega)]
  refine ⟨hdst, ?_, ⟨Nat.mod_lt _ hsize, show c.s - n2 ≤ c.size by omega, hd⟩, ?_⟩
  · rw [hdst, List.length_take, cbuf_contents_length]
  · apply list_ext_getD
    · rw [cbuf_contents_mk, List.length_map, List.length_range,
        List.length_drop, cbuf_contents_length]
      omega
    · intro idx hidx
      rw [cbuf_contents_mk, List.length_map, List.length_range] at hidx
      rw [cbuf_contents_mk, getD_map_range _ _ _ hidx, getD_drop,
        cbuf_contents_getD _ _ (show n + idx < c.s by omega), Nat.mod_add_mod,
        show c.i + n2 + idx = c.i + (n + idx) by omega]

theorem cbuf_write_fit (c : cbuf_t) (src : List Nat) (hinv : cbuf_inv c)
    (hfit : c.s + src.length ≤ c.size) :
    cbuf_contents (cbuf_write c src).1 = cbuf_contents c ++ src ∧
    cbuf_inv (cbuf_write c src).1 := by
  obtain ⟨h1, h2, h3, h4⟩ := cbuf_write_core c src hinv (by omega)
  refine ⟨?_, h1⟩
  rw [h4]
  apply takeLast_all
  rw [List.length_append, cbuf_contents_length]
  omega

theorem cbuf_run_fifo (ops : List cbuf_op) :
    ∀ c : cbuf_t, cbuf_inv c → cbuf_writes_fit c ops →
      (cbuf_run c ops).2 ++ cbuf_contents (cbuf_run c ops).1 =
        cbuf_contents c ++ cbuf_written ops := by
  induction ops with
  | nil =>
      intro c _ _
      simp [cbuf_run, cbuf_written]
  | cons op ops ih =>
      intro c hinv hfit
      cases op with
      | write src =>
          obtain ⟨hf, hfit2⟩ := hfit
          obtain ⟨hcont, hinv2⟩ := cbuf_write_fit c src hinv hf
          show (cbuf_run (cbuf_write c src).1 ops).2 ++
              cbuf_contents (cbuf_run (cbuf_write c src).1 ops).1 =
            cbuf_contents c ++ (src ++ cbuf_written ops)
          rw [ih _ hinv2 hfit2, hcont, List.append_assoc]
      | read n =>
          have hfit2 : cbuf_writes_fit (cbuf_read c n).2 ops := hfit
          have hr := cbuf_read_spec c n hinv
          show ((cbuf_read c n).1 ++ (cbuf_run (cbuf_read c n).2 ops).2) ++
              cbuf_contents (cbuf_run (cbuf_read c n).2 ops).1 =
            cbuf_contents c ++ cbuf_written ops
          rw [List.append_assoc, ih _ hr.2.2.1 hfit2, hr.2.2.2, hr.1,
            ← List.append_assoc, List.take_append_drop]

/-- C3: over any operation sequence in which every write fits into the
free space, the concatenation of all bytes delivered by reads, followed by
the bytes still buffered, equals the initial contents followed by all
bytes written — reads deliver exactly the written bytes in FIFO order;
moreover every read copies exactly `min n occupied` bytes (never more than
`occupied`) and that is its return count. -/
theorem cbuf_fifo_spec (c : cbuf_t) (ops : List cbuf_op) (hinv : cbuf_inv c)
    (hfit : cbuf_writes_fit c ops) :
    (cbuf_run c ops).2 ++ cbuf_contents (cbuf_run c ops).1 =
      cbuf_contents c ++ cbuf_written ops ∧
    (∀ (c2 : cbuf_t) (m : Nat), cbuf_inv c2 →
      (cbuf_read c2 m).1.length = min m c2.s ∧
      (cbuf_read c2 m).1 = (cbuf_contents c2).take m) :=
  ⟨cbuf_run_fifo ops c hinv hfit,
   fun c2 m h2 => ⟨(cbuf_read_spec c2 m h2).2.1, (cbuf_read_spec c2 m h2).1⟩⟩

/-- Witness for C3: an empty buffer of capacity 4, one 2-byte write
followed by a 2-byte read. -/
theorem cbuf_fifo_spec_witness :
    cbuf_inv ⟨0, 0, 4, [0, 0, 0, 0]⟩ ∧
    cbuf_writes_fit ⟨0, 0, 4, [0, 0, 0, 0]⟩
      [cbuf_op.write [1, 2], cbuf_op.read 2] ∧
    (cbuf_run ⟨0, 0, 4, [0, 0, 0, 0]⟩
        [cbuf_op.write [1, 2], cbuf_op.read 2]).2 ++
      cbuf_contents (cbuf_run ⟨0, 0, 4, [0, 0, 0, 0]⟩
        [cbuf_op.write [1, 2], cbuf_op.read 2]).1 =
      cbuf_contents ⟨0, 0, 4, [0, 0, 0, 0]⟩ ++
        cbuf_written [cbuf_op.write [1, 2], cbuf_op.read 2] := by
  have h1 : cbuf_inv ⟨0, 0, 4, [0, 0, 0, 0]⟩ := ⟨by decide, by decide, rfl⟩
  have h2 : cbuf_writes_fit ⟨0, 0, 4, [0, 0, 0, 0]⟩
      [cbuf_op.write [1, 2], cbuf_op.read 2] := ⟨by decide, trivial⟩
  exact ⟨h1, h2, (cbuf_fifo_spec _ _ h1 h2).1⟩

/-- C9: the audio callback fills the first `min len occupied` bytes of the
stream with the oldest buffered bytes, consumes them, and zero-fills the
remaining `len - min len occupied` bytes; the stream is always completely
filled (length `len`), so the callback never waits for data. -/
theorem snd_callback_spec (c : cbuf_t) (len : Nat) (hinv : cbuf_inv c) :
    (snd_callback c len).1 =
      (cbuf_contents c).take len ++ List.replicate (len - min len c.s) 0 ∧
    (snd_callback c len).1.length = len ∧
    cbuf_contents (snd_callback c len).2 = (cbuf_contents c).drop len := by
  obtain ⟨h1, h2, _, h4⟩ := cbuf_read_spec c len hinv
  refine ⟨?_, ?_, h4⟩
  · show (cbuf_read c len).1 ++
        List.replicate (len - (cbuf_read c len).1.length) 0 =
      (cbuf_contents c).take len ++ List.replicate (len - min len c.s) 0
    rw [h1, List.length_take, cbuf_contents_length]
  · show ((cbuf_read c len).1 ++
        List.replicate (len - (cbuf_read c len).1.length) 0).length = len
    rw [List.length_append, h2, List.length_replicate]
    have : min len c.s ≤ len := Nat.min_le_left _ _
    omega

/-- Witness for C9: a buffer holding 2 bytes, a callback asking for 4:
the two buffered bytes arrive first, the shortfall is zero-filled. -/
theorem snd_callback_spec_witness :
    cbuf_inv ⟨0, 2, 4, [5, 6, 0, 0]⟩ ∧
    (snd_callback ⟨0, 2, 4, [5, 6, 0, 0]⟩ 4).1 =
      (cbuf_contents ⟨0, 2, 4, [5, 6, 0, 0]⟩).take 4 ++
        List.replicate (4 - min 4 2) 0 := by
  have h : cbuf_inv ⟨0, 2, 4, [5, 6, 0, 0]⟩ := ⟨by decide, by decide, rfl⟩
  exact ⟨h, (snd_callback_spec ⟨0, 2, 4, [5, 6, 0, 0]⟩ 4 h).1⟩

/-! ### Stretch table lemmas -/

theorem stretch_step_length (ratio src : Nat) (t : List Nat) (d : Nat) :
    (stretch_step ratio src t d).length = t.length := by
  unfold stretch_step
  by_cases h : (d * 1024) / ratio < src
  · rw [if_pos h, List.length_set]
  · rw [if_neg h]

theorem stretch_fold_length (ratio src : Nat) (l : List Nat) :
    ∀ t : List Nat, (l.foldl (stretch_step ratio src) t).length = t.length := by
  induction l with
  | nil => intro t; rfl
  | cons d l ih =>
      intro t
      rw [List.foldl_cons, ih, stretch_step_length]

theorem stretch_table_length (dst ratio src : Nat) :
    (stretch_table dst ratio src).length = src := by
  unfold stretch_table
  rw [stretch_fold_length, List.length_replicate]

theorem getD_set_self (t : List Nat) (s v : Nat) (h : s < t.length) :
    (t.set s v).getD s 0 = v := by
  rw [List.getD_eq_getElem?_getD, List.getElem?_set_self h, Option.getD_some]

theorem getD_set_ne (t : List Nat) (j s v : Nat) (h : j ≠ s) :
    (t.set j v).getD s 0 = t.getD s 0 := by
  rw [List.getD_eq_getElem?_getD, List.getElem?_set_ne h,
    ← List.getD_eq_getElem?_getD]

theorem stretch_table_getD (dst ratio src s : Nat) (hs : s < src) :
    (stretch_table dst ratio src).getD s 0 =
      ((Finset.range dst).filter (fun d => (d * 1024) / ratio = s)).card % 256 := by
  induction dst with
  | zero =>
      unfold stretch_table
      rw [List.range_zero, List.foldl_nil, List.getD_eq_getElem?_getD,
        List.getElem?_replicate, if_pos hs]
      simp
  | succ n ih =>
      unfold stretch_table at ih ⊢
      rw [List.range_succ, List.foldl_append, List.foldl_cons, List.foldl_nil,
        Finset.range_succ, Finset.filter_insert]
      set T := (List.range n).foldl (stretch_step ratio src)
        (List.replicate src 0) with hT
      have hTlen : T.length = src := by
        rw [hT, stretch_fold_length, List.length_replicate]
      rw [show stretch_step ratio src T n =
            (if (n * 1024) / ratio < src
             then T.set ((n * 1024) / ratio) ((T.getD ((n * 1024) / ratio) 0 + 1) % 256)
             else T) from rfl]
      by_cases hlt : (n * 1024) / ratio < src
      · rw [if_pos hlt]
        by_cases heq : (n * 1024) / ratio = s
        · rw [if_pos heq, Finset.card_insert_of_not_mem (by simp), heq,
            getD_set_self _ _ _ (by rw [hTlen]; exact hs), ih]
          omega
        · rw [if_neg heq, getD_set_ne _ _ _ _ heq, ih]
      · rw [if_neg hlt, if_neg (fun h => hlt (by rw [h]; exact hs)), ih]

theorem sum_eq_sum_getD (l : List Nat) :
    l.sum = ∑ idx ∈ Finset.range l.length, l.getD idx 0 := by
  induction l with
  | nil => simp
  | cons a t ih =>
      rw [List.sum_cons, List.length_cons, Finset.sum_range_succ']
      simp only [List.getD_cons_succ, List.getD_cons_zero]
      rw [← ih]
      omega

theorem stretch_src_lt (dst src d : Nat) (h2 : 1 ≤ src) (h3 : src ≤ 1024)
    (hd : d < dst) : (d * 1024) / ((dst * 1024) / src) < src := by
  have hsrc : 0 < src := by omega
  have hr1 : 1 ≤ (dst * 1024) / src := by
    rw [Nat.le_div_iff_mul_le hsrc]
    have h1 : 1 ≤ dst := by omega
    calc 1 * src = src := by omega
    _ ≤ 1024 := h3
    _ ≤ dst * 1024 := by
        calc (1024 : Nat) = 1 * 1024 := by omega
        _ ≤ dst * 1024 := Nat.mul_le_mul_right _ h1
  rw [Nat.div_lt_iff_lt_mul (by omega)]
  have hmod := Nat.div_add_mod (dst * 1024) src
  have hmodlt := Nat.mod_lt (dst * 1024) hsrc
  have hmul : (d + 1) * 1024 ≤ dst * 1024 := Nat.mul_le_mul_right _ (by omega)
  have hcomm : src * ((dst * 1024) / src) = ((dst * 1024) / src) * src :=
    Nat.mul_comm _ _
  omega

theorem stretch_ratio_le (dst src : Nat) (h2 : 1 ≤ src) (h4 : dst < 255 * src) :
    (dst * 1024) / src ≤ 255 * 1024 - 1 := by
  have hlt : (dst * 1024) / src < 255 * 1024 := by
    rw [Nat.div_lt_iff_lt_mul (by omega)]
    calc dst * 1024 < (255 * src) * 1024 :=
          (Nat.mul_lt_mul_right (by omega)).mpr h4
    _ = 255 * 1024 * src := by ring
  omega

theorem fiber_card_le (dst ratio s : Nat) (hr1 : 1 ≤ ratio)
    (hr2 : ratio ≤ 255 * 1024 - 1) :
    ((Finset.range dst).filter (fun d => (d * 1024) / ratio = s)).card ≤ 255 := by
  have hsub : (Finset.range dst).filter (fun d => (d * 1024) / ratio = s) ⊆
      Finset.Ico ((s * ratio + 1023) / 1024) ((s * ratio + 1023) / 1024 + 255) := by
    intro d hd
    simp only [Finset.mem_filter, Finset.mem_range] at hd
    obtain ⟨_, hd2⟩ := hd
    have hlow : s * ratio ≤ d * 1024 := by
      rw [← hd2]
      exact Nat.div_mul_le_self _ _
    have hdm := Nat.div_add_mod (d * 1024) ratio
    have hdmlt := Nat.mod_lt (d * 1024) (show 0 < ratio by omega)
    rw [hd2] at hdm
    have hcomm : ratio * s = s * ratio := Nat.mul_comm _ _
    have hhigh : d * 1024 < s * ratio + ratio := by omega
    have ham := Nat.div_add_mod (s * ratio + 1023) 1024
    have hamlt := Nat.mod_lt (s * ratio + 1023) (show 0 < (1024 : Nat) by omega)
    rw [Finset.mem_Ico]
    constructor
    · have : (s * ratio + 1023) / 1024 < d + 1 := by
        rw [Nat.div_lt_iff_lt_mul (by omega)]
        have : (d + 1) * 1024 = d * 1024 + 1024 := by ring
        omega
      omega
    · have h1024a : 1024 * ((s * ratio + 1023) / 1024) ≥ s * ratio := by omega
      have : d * 1024 < ((s * ratio + 1023) / 1024 + 255) * 1024 := by
        have hexp : ((s * ratio + 1023) / 1024 + 255) * 1024 =
            1024 * ((s * ratio + 1023) / 1024) + 255 * 1024 := by ring
        omega
      omega
  calc ((Finset.range dst).filter (fun d => (d * 1024) / ratio = s)).card
      ≤ (Finset.Ico ((s * ratio + 1023) / 1024)
          ((s * ratio + 1023) / 1024 + 255)).card := Finset.card_le_card hsub
  _ = 255 := by rw [Nat.card_Ico]; omega

theorem stretch_table_sum (dst src : Nat) (h2 : 1 ≤ src) (h3 : src ≤ 1024)
    (h4 : dst < 255 * src) :
    (stretch_table dst ((dst * 1024) / src) src).sum = dst := by
  rcases Nat.eq_zero_or_pos dst with h0 | h0
  · subst h0
    unfold stretch_table
    rw [List.range_zero, List.foldl_nil, List.sum_replicate]
    simp
  · have hsrc : 0 < src := by omega
    have hr1 : 1 ≤ (dst * 1024) / src := by
      rw [Nat.le_div_iff_mul_le hsrc]
      have h1 : 1 ≤ dst := by omega
      calc 1 * src = src := by omega
      _ ≤ 1024 := h3
      _ ≤ dst * 1024 := by
          calc (1024 : Nat) = 1 * 1024 := by omega
          _ ≤ dst * 1024 := Nat.mul_le_mul_right _ h1
    have hr2 := stretch_ratio_le dst src h2 h4
    rw [sum_eq_sum_getD, stretch_table_length]
    have hterm : ∀ s ∈ Finset.range src,
        (stretch_table dst ((dst * 1024) / src) src).getD s 0 =
          ((Finset.range dst).filter
            (fun d => (d * 1024) / ((dst * 1024) / src) = s)).card := by
      intro s hs
      rw [stretch_table_getD _ _ _ _ (Finset.mem_range.mp hs)]
      have hle := fiber_card_le dst ((dst * 1024) / src) s hr1 hr2
      omega
    rw [Finset.sum_congr rfl hterm,
      ← Finset.card_eq_sum_card_fiberwise
        (fun d hd => Finset.mem_range.mpr
          (stretch_src_lt dst src d h2 h3 (Finset.mem_range.mp hd))),
      Finset.card_range]

/-- C4, amended: for every geometry accepted by the stretch filter's
initialization (source dimensions at least 1) in which additionally each
source dimension is at most 1024 and each aspect-corrected destination
dimension is less than 255 times the corresponding source dimension, the
8-bit repeat tables account for every destination pixel exactly once:
`Σ h_table = dst_w` and `Σ v_table = dst_h`.  Beyond ratio 255 the
`uint8_t` counters wrap and the sums fall short (see the
counterexample). -/
theorem filter_stretch_tables_sum (aspect : Bool) (out_w out_h src_w src_h : Nat)
    (hw0 : 1 ≤ src_w) (hh0 : 1 ≤ src_h) (hw1 : src_w ≤ 1024) (hh1 : src_h ≤ 1024)
    (hw2 : (stretch_fix_aspect aspect out_w out_h src_w src_h).1 < 255 * src_w)
    (hh2 : (stretch_fix_aspect aspect out_w out_h src_w src_h).2 < 255 * src_h) :
    (filter_stretch_tables aspect out_w out_h src_w src_h).1.sum =
      (stretch_fix_aspect aspect out_w out_h src_w src_h).1 ∧
    (filter_stretch_tables aspect out_w out_h src_w src_h).2.sum =
      (stretch_fix_aspect aspect out_w out_h src_w src_h).2 := by
  have he1 : (filter_stretch_tables aspect out_w out_h src_w src_h).1 =
      stretch_table (stretch_fix_aspect aspect out_w out_h src_w src_h).1
        (((stretch_fix_aspect aspect out_w out_h src_w src_h).1 * 1024) / src_w)
        src_w := rfl
  have he2 : (filter_stretch_tables aspect out_w out_h src_w src_h).2 =
      stretch_table (stretch_fix_aspect aspect out_w out_h src_w src_h).2
        (((stretch_fix_aspect aspect out_w out_h src_w src_h).2 * 1024) / src_h)
        src_h := rfl
  rw [he1, he2]
  exact ⟨stretch_table_sum _ _ hw0 hw1 hw2, stretch_table_sum _ _ hh0 hh1 hh2⟩

/-- Witness for C4 at the realistic geometry 320x224 stretched to
640x480 with free aspect ratio. -/
theorem filter_stretch_tables_sum_witness :
    (stretch_fix_aspect false 640 480 320 224).1 < 255 * 320 ∧
    (filter_stretch_tables false 640 480 320 224).1.sum =
      (stretch_fix_aspect false 640 480 320 224).1 := by
  refine ⟨by decide, ?_⟩
  exact (filter_stretch_tables_sum false 640 480 320 224 (by decide) (by decide)
    (by decide) (by decide) (by decide) (by decide)).1

/-- Counterexample to C4 as stated: the geometry src 1x1, dst 256x1 is
accepted by the initialization, but the single `uint8_t` column counter is
incremented 256 times and wraps to 0, so `Σ h_table = 0 ≠ 256`. -/
theorem filter_stretch_tables_overflow :
    (filter_stretch_tables false 256 1 1 1).1.sum = 0 ∧
    ¬((filter_stretch_tables false 256 1 1 1).1.sum = 256) := by
  set_option maxRecDepth 4000 in decide

end DGen
